import Mathlib

/-!
Verification development for `reinforce.py` (REINFORCE / Monte Carlo policy
gradient training loop).

The file is organised as follows.

* A small model `FV` of float values that distinguishes NaN from ordinary
  (real-valued) numbers.  `torch.std` of a tensor with fewer than two
  elements yields NaN under the default unbiased correction, and that NaN
  then propagates through the ε-guarded division, so NaN must be tracked
  explicitly to settle the numerical claims.
* `get_policy_loss` (lines 18-24 of the source), embedded over ℝ with NaN
  propagation.  `torch.stack(log_probs)` raises on an empty list, which is
  modelled by an `Except` result.
* The training orchestrator `reinforce` (lines 27-127), embedded over ℚ as
  an explicitly state-passing function so that concrete runs can be
  evaluated by `decide`.  The policy network, the action selector, the
  environments and the optimizer are the source's external collaborators
  and are parameters of the model.
* Concrete environments and the claim theorems.
-/

namespace DeepRLTrading

/-- Model of a float scalar: either an ordinary number (carried as a real)
or NaN.  Infinities never arise in the expressions modelled here (the only
division is by `std + ε`, whose denominator is at least `ε > 0` whenever it
is an ordinary number), so they are not represented. -/
inductive FV where
  | nan : FV
  | val : ℝ → FV

/-- Float addition with NaN propagation. -/
def FV.add : FV → FV → FV
  | FV.val a, FV.val b => FV.val (a + b)
  | _, _ => FV.nan

/-- Float multiplication with NaN propagation. -/
def FV.mul : FV → FV → FV
  | FV.val a, FV.val b => FV.val (a * b)
  | _, _ => FV.nan

/-- Float division with NaN propagation.  In every use below the
denominator, when it is an ordinary number, equals `std + ε ≥ ε > 0`, so
real division is faithful on the `val`/`val` case. -/
noncomputable def FV.div : FV → FV → FV
  | FV.val a, FV.val b => FV.val (a / b)
  | _, _ => FV.nan

/-- A float is finite exactly when it is an ordinary number (no NaN). -/
def FV.isFinite : FV → Bool
  | FV.val _ => true
  | FV.nan => false

/-- Sum of a list of float values, as `tensor.sum()`.  Summation order is
immaterial for the value (`FV.add` is associative and commutative and NaN
is absorbing); a right fold is used for convenient reasoning. -/
def fvSum (l : List FV) : FV := l.foldr FV.add (FV.val 0)

/-- `np.finfo(np.float32).eps`, the float32 machine epsilon, exactly. -/
noncomputable def eps : ℝ := 1 / 2 ^ 23

/-- `r.mean()` of `torch.FloatTensor(rewards)`: sum divided by length
(only ever applied to non-empty lists below; on `[]` torch yields NaN,
which is handled at the call sites that can receive `[]`). -/
noncomputable def tmean (r : List ℝ) : ℝ := r.sum / r.length

/-- Sum of squared deviations from the mean, the numerator of the
(unbiased) sample variance used by `torch.std`. -/
noncomputable def ssq (r : List ℝ) : ℝ := (r.map (fun x => (x - tmean r) ^ 2)).sum

/-- The real value of `torch.std` for lists with at least two elements:
`sqrt (ssq / (n - 1))` (unbiased sample standard deviation). -/
noncomputable def tstdVal (r : List ℝ) : ℝ := Real.sqrt (ssq r / (r.length - 1))

/-- `r.std()`: with the default unbiased correction, torch returns NaN when
the tensor has fewer than two elements (degrees of freedom ≤ 0), and the
real sample standard deviation otherwise. -/
noncomputable def tstd (r : List ℝ) : FV :=
  if r.length < 2 then FV.nan else FV.val (tstdVal r)

/-- Line 21 of the source: `(r - r.mean()) / (r.std() + eps)`, elementwise
over the reward tensor, with NaN propagation.  The mean of a non-empty
list is an ordinary number; the std may be NaN (fewer than two rewards). -/
noncomputable def normalize (rewards : List ℝ) : List FV :=
  rewards.map (fun x => FV.div (FV.val (x - tmean rewards)) (FV.add (tstd rewards) (FV.val eps)))

/-- Lines 18-24 of the source, `get_policy_loss(rewards, log_probs)`:
normalize the rewards, then `torch.mul(log_probs, r).mul(-1).sum()`.
`torch.stack(log_probs)` raises a RuntimeError on an empty list, modelled
by `Except.error ()`; the preceding mean/std of an empty reward tensor
only emit NaN warnings and do not raise, so the error is exactly the
emptiness of `log_probs`.  The two tensors always have equal length at the
(single) call site in `reinforce`. -/
noncomputable def get_policy_loss (rewards log_probs : List ℝ) : Except Unit FV :=
  if log_probs.isEmpty then Except.error ()
  else Except.ok (fvSum (List.zipWith
    (fun lp nr => FV.mul (FV.mul (FV.val lp) nr) (FV.val (-1))) log_probs (normalize rewards)))

/-- The loss expression exactly as the specification words it:
`-1 * sum_i (log_probability_i * normalized_reward_i)`, with the
normalized rewards given by the same `(r_i - mean) / (std + ε)` formula. -/
noncomputable def specPolicyLoss (rewards log_probs : List ℝ) : FV :=
  FV.mul (FV.val (-1)) (fvSum (List.zipWith
    (fun lp nr => FV.mul (FV.val lp) nr) log_probs (normalize rewards)))

/-- Real-valued form of the normalizer, valid when the std is an ordinary
number (at least two rewards). -/
noncomputable def normalizeR (rewards : List ℝ) : List ℝ :=
  rewards.map (fun x => (x - tmean rewards) / (tstdVal rewards + eps))

/-! ## The training orchestrator

`reinforce` (lines 27-127) is embedded over ℚ (exact float surrogate) as
an explicitly state-passing function.  Its external collaborators are
parameters:

* `act : π → ω → Option η → Bool → ℚ → α × ℚ × Option η` — the action
  selector, returning `(action, log_prob, next_hidden_state)`;
* `EnvM ε ω α` — an environment with internal state `ε`, observations `ω`
  and actions `α`, mutated in place in Python and threaded here;
* `trainUpdate : π → List ℚ → List ℚ → π` — the effect on the policy
  parameters of `optimize(optimizer, get_policy_loss(rewards, log_probs))`
  (lines 100-101).  The loss is a function of the trajectory alone, so the
  parameter update is abstracted as an arbitrary function of
  `(rewards, log_probs)`; the loss value itself is verified in the ℝ model
  above.  `get_policy_loss` raises exactly when `log_probs` is empty
  (`get_policy_loss_ok_iff`), which the orchestrator model tests inline.

Each call to the action selector is additionally recorded in a ghost
`callLog` (hidden state passed and returned, exploration rate passed);
this instrumentation has no effect on the computation. -/

/-- Ghost record of one `act(policy_network, state, hx, recurrent,
exploration_rate)` call: the hidden state passed, the hidden state
returned, and the exploration rate passed. -/
structure ActCall (η : Type) where
  hxIn : Option η
  hxOut : Option η
  rate : ℚ
deriving DecidableEq

/-- An environment: `reset() -> state` and
`step(action) -> (state, reward, done, info)`, with internal state `ε`
threaded explicitly (`info` is discarded by the source). -/
structure EnvM (ε ω α : Type) where
  reset : ε → ε × ω
  step : ε → α → ε × ω × ℚ × Bool

/-- The result of one run of the inner rollout loop (lines 87-97):
recorded actions / rewards / log-probabilities, the final observation and
environment state, the final exploration rate, the final `done` flag, and
the ghost log of action-selector calls. -/
structure RollResult (ε ω α η : Type) where
  actions : List α
  rewards : List ℚ
  log_probs : List ℚ
  obs : ω
  env : ε
  rate : ℚ
  done : Bool
  callLog : List (ActCall η)
deriving DecidableEq

/-- Lines 87-97: the inner rollout loop, structurally recursive on the
remaining iteration budget of `range(max_episode_length)`.  The incoming
`done` flag (`dn`) is Python's enclosing `done` variable: if the loop body
never runs (budget 0) the flag keeps its previous value; a step that
signals `done` breaks out *before* recording that step's action, reward
and log-probability and before decaying the exploration rate. -/
def rollout {π ω ε α η : Type} (env : EnvM ε ω α)
    (act : π → ω → Option η → Bool → ℚ → α × ℚ × Option η)
    (recurrent : Bool) (exploration_decay exploration_min : ℚ) (p : π) :
    ℕ → ω → ε → Option η → ℚ → Bool → RollResult ε ω α η
  | 0, s, e, _hx, xr, dn => ⟨[], [], [], s, e, xr, dn, []⟩
  | f + 1, s, e, hx, xr, _dn =>
    let alh := act p s hx recurrent xr
    let srd := env.step e alh.1
    if srd.2.2.2 then
      ⟨[], [], [], srd.2.1, srd.1, xr, true, [⟨hx, alh.2.2, xr⟩]⟩
    else
      let rest := rollout env act recurrent exploration_decay exploration_min p f
        srd.2.1 srd.1 alh.2.2 (max (xr * exploration_decay) exploration_min) srd.2.2.2
      ⟨alh.1 :: rest.actions, srd.2.2.1 :: rest.rewards, alh.2.1 :: rest.log_probs,
        rest.obs, rest.env, rest.rate, rest.done, ⟨hx, alh.2.2, xr⟩ :: rest.callLog⟩

/-- The final state returned by `reinforce`: the two histories of line 127
plus, for verification, the final policy parameters, the final internal
states of the two environments, the completed-episode counter, and the
ghost per-outer-iteration log of action-selector calls.  (The Python
function returns only `(reward_history, action_history)`.) -/
structure RunResult (π ε εv α η : Type) where
  reward_history : List ℚ
  action_history : List (List α)
  p : π
  env : ε
  ve : εv
  completed : ℕ
  actLog : List (List (ActCall η))
deriving DecidableEq

/-- The mutable locals of the outer loop (lines 58-79): policy parameters,
the two environment states, current observation, exploration rate, `done`
flag, the histories, the per-episode accumulators, the validation rewards,
the completed-episode counter, and the ghost log. -/
structure LoopState (π ε εv ω α η : Type) where
  p : π
  e : ε
  ve : εv
  obs : ω
  xr : ℚ
  done : Bool
  reward_history : List ℚ
  action_history : List (List α)
  total_rewards : List ℚ
  total_actions : List α
  validation_rewards : List ℚ
  completed : ℕ
  actLog : List (List (ActCall η))

/-- Package the current loop state as the function's result (line 127 and
the early return of line 124 expose the histories; the rest is the final
collaborator state). -/
def mkResult {π ε εv ω α η : Type} (st : LoopState π ε εv ω α η) : RunResult π ε εv α η :=
  ⟨st.reward_history, st.action_history, st.p, st.e, st.ve, st.completed, st.actLog⟩

/-- Lines 81-127: the outer episode loop, structurally recursive on the
remaining iterations of `range(num_episodes)`.  Per iteration: run the
rollout with the hidden state reset to `None` (line 85); if `train`,
compute the policy loss and apply one optimization step (lines 99-101) —
this raises (`Except.error`) when the trajectory is empty, because
`torch.stack([])` raises inside `get_policy_loss`; extend the episode
accumulators (lines 103-104); on `done`, append the accumulated totals to
the histories, reset the environment and bump the counter (lines
106-112); on `done`, if early stopping is due, run one validation episode
and return immediately when its reward is strictly below the previous
validation reward (lines 121-125).  `validator p ve` models the nested
`reinforce(..., train=False, num_episodes=1, ...)` call of line 122
together with the `val_reward[0]` access of line 123; it returns the
validation reward, the policy parameters and validation-environment state
it leaves behind. -/
def epLoop {π ω ε εv α η : Type} (env : EnvM ε ω α)
    (act : π → ω → Option η → Bool → ℚ → α × ℚ × Option η)
    (trainUpdate : π → List ℚ → List ℚ → π)
    (validator : π → εv → Except Unit (ℚ × π × εv))
    (train recurrent early_stopping : Bool)
    (exploration_decay exploration_min : ℚ)
    (max_episode_length early_stopping_freq : ℕ) :
    ℕ → LoopState π ε εv ω α η → Except Unit (RunResult π ε εv α η)
  | 0, st => Except.ok (mkResult st)
  | m + 1, st =>
    let ro := rollout env act recurrent exploration_decay exploration_min st.p
      max_episode_length st.obs st.e none st.xr st.done
    if train && ro.log_probs.isEmpty then Except.error ()
    else
      let p1 := if train then trainUpdate st.p ro.rewards ro.log_probs else st.p
      let totR := st.total_rewards ++ ro.rewards
      let totA := st.total_actions ++ ro.actions
      let lg := st.actLog ++ [ro.callLog]
      if ro.done then
        let rh := st.reward_history ++ [totR.sum]
        let ah := st.action_history ++ [totA]
        let er := env.reset ro.env
        let cnt := st.completed + 1
        if early_stopping && (cnt % early_stopping_freq == 0) then
          match validator p1 st.ve with
          | Except.error _ => Except.error ()
          | Except.ok vpe =>
            match st.validation_rewards.getLast? with
            | some w =>
              if vpe.1 < w then
                Except.ok ⟨rh, ah, vpe.2.1, er.1, vpe.2.2, cnt, lg⟩
              else
                epLoop env act trainUpdate validator train recurrent early_stopping
                  exploration_decay exploration_min max_episode_length early_stopping_freq m
                  ⟨vpe.2.1, er.1, vpe.2.2, er.2, ro.rate, true, rh, ah, [], [],
                    st.validation_rewards ++ [vpe.1], cnt, lg⟩
            | none =>
              epLoop env act trainUpdate validator train recurrent early_stopping
                exploration_decay exploration_min max_episode_length early_stopping_freq m
                ⟨vpe.2.1, er.1, vpe.2.2, er.2, ro.rate, true, rh, ah, [], [],
                  st.validation_rewards ++ [vpe.1], cnt, lg⟩
        else
          epLoop env act trainUpdate validator train recurrent early_stopping
            exploration_decay exploration_min max_episode_length early_stopping_freq m
            ⟨p1, er.1, st.ve, er.2, ro.rate, true, rh, ah, [], [],
              st.validation_rewards, cnt, lg⟩
      else
        epLoop env act trainUpdate validator train recurrent early_stopping
          exploration_decay exploration_min max_episode_length early_stopping_freq m
          ⟨p1, ro.env, st.ve, ro.obs, ro.rate, false, st.reward_history, st.action_history,
            totR, totA, st.validation_rewards, st.completed, lg⟩

/-- The configuration surface of `reinforce` with the Python default
values (line 27); learning rate, weight decay and the printing options
have no effect on the modelled state and are omitted. -/
structure Cfg where
  exploration_rate : ℚ := 1
  exploration_decay : ℚ := 1 - 1 / 10000
  exploration_min : ℚ := 0
  num_episodes : ℕ := 1000
  max_episode_length : ℕ := 2147483647
  train : Bool := true
  recurrent : Bool := false
  early_stopping : Bool := false
  early_stopping_freq : ℕ := 100

/-- Lines 57-79 followed by the outer loop: if not training, both
`exploration_min` and `exploration_rate` are overwritten with `0` (lines
67-69); the environment is reset twice (the duplicated lines 64-65 and
74-79); all accumulators start empty. -/
def reinforceCore {π ω ε εv α η : Type} (env : EnvM ε ω α)
    (act : π → ω → Option η → Bool → ℚ → α × ℚ × Option η)
    (trainUpdate : π → List ℚ → List ℚ → π)
    (validator : π → εv → Except Unit (ℚ × π × εv))
    (cfg : Cfg) (p : π) (e : ε) (ve : εv) : Except Unit (RunResult π ε εv α η) :=
  let xmin : ℚ := if cfg.train then cfg.exploration_min else 0
  let xr0 : ℚ := if cfg.train then cfg.exploration_rate else 0
  let r1 := env.reset e
  let r2 := env.reset r1.1
  epLoop env act trainUpdate validator cfg.train cfg.recurrent cfg.early_stopping
    cfg.exploration_decay xmin cfg.max_episode_length cfg.early_stopping_freq
    cfg.num_episodes
    ⟨p, r2.1, ve, r2.2, xr0, false, [], [], [], [], [], 0, []⟩

/-- The configuration of the nested validation call of line 122:
`train=False, num_episodes=1, exploration_rate=0, exploration_min=0`,
`recurrent` passed through, everything else at its default (in particular
`early_stopping=False`, so the nested call never recurses further). -/
def nestedCfg (recurrent : Bool) : Cfg :=
  { exploration_rate := 0, exploration_min := 0, num_episodes := 1,
    train := false, recurrent := recurrent }

/-- The validator of a nested call: its `val_env` is Python's `None`
(`val_env=None` default), against which any environment operation would
raise — but the nested call has `early_stopping=False`, so this branch is
dead there. -/
def deadValidator {π : Type} : π → Unit → Except Unit (ℚ × π × Unit) :=
  fun _ _ => Except.error ()

/-- Line 122-123: run `reinforce(policy_network, val_env, act,
train=False, num_episodes=1, print_res=False, recurrent=recurrent,
exploration_rate=0, exploration_min=0)` against the validation
environment and read `val_reward[0]`; if the nested call completed no
episode, that subscript raises an IndexError (`Except.error`). -/
def valValidator {π ωv εv αv η : Type} (valEnv : EnvM εv ωv αv)
    (act : π → ωv → Option η → Bool → ℚ → αv × ℚ × Option η)
    (trainUpdate : π → List ℚ → List ℚ → π)
    (recurrent : Bool) : π → εv → Except Unit (ℚ × π × εv) := fun p ve =>
  match reinforceCore valEnv act trainUpdate deadValidator (nestedCfg recurrent) p ve () with
  | Except.error _ => Except.error ()
  | Except.ok res =>
    match res.reward_history with
    | [] => Except.error ()
    | v :: _ => Except.ok (v, res.p, res.env)

/-- The top-level `reinforce` of line 27.  In Python both environments are
driven through the same `act` function, so the training and validation
environments share observation and action types; their internal state
types may differ. -/
def reinforce {π ω ε εv α η : Type} (env : EnvM ε ω α) (valEnv : EnvM εv ω α)
    (act : π → ω → Option η → Bool → ℚ → α × ℚ × Option η)
    (trainUpdate : π → List ℚ → List ℚ → π)
    (cfg : Cfg) (p : π) (e : ε) (ve : εv) : Except Unit (RunResult π ε εv α η) :=
  reinforceCore env act trainUpdate (valValidator valEnv act trainUpdate cfg.recurrent)
    cfg p e ve

/-- Decidable equality for `Except` results, so that concrete runs of the
model can be checked by `decide`. -/
instance {e a : Type} [DecidableEq e] [DecidableEq a] : DecidableEq (Except e a) := fun x y =>
  match x, y with
  | Except.error u, Except.error v =>
    if h : u = v then isTrue (by rw [h]) else isFalse (fun hc => by cases hc; exact h rfl)
  | Except.error _, Except.ok _ => isFalse (fun hc => by cases hc)
  | Except.ok _, Except.error _ => isFalse (fun hc => by cases hc)
  | Except.ok u, Except.ok v =>
    if h : u = v then isTrue (by rw [h]) else isFalse (fun hc => by cases hc; exact h rfl)

/-! ## Concrete collaborators for counterexamples and witnesses -/

/-- A trivial deterministic action selector: policy parameters `Unit`,
hidden states `Unit`, action `0` with log-probability `0`. -/
def constAct {ω : Type} : Unit → ω → Option Unit → Bool → ℚ → ℕ × ℚ × Option Unit :=
  fun _ _ _ _ _ => (0, 0, none)

/-- A parameter update that leaves the (trivial) parameters unchanged. -/
def unitUpdate : Unit → List ℚ → List ℚ → Unit := fun p _ _ => p

/-- A deterministic environment whose internal state is the list of
rewards still to be emitted: each step pops one reward with `done=False`,
and a step on the empty list signals `done=True`.  An environment holding
`[r_1, ..., r_{k-1}]` therefore terminates after exactly `k` steps with
the last step excluded from the trajectory, as in the C2 scenario. -/
def listEnv : EnvM (List ℚ) (List ℚ) ℕ where
  reset := fun l => (l, l)
  step := fun l _ =>
    match l with
    | [] => ([], [], 0, true)
    | r :: t => (t, t, r, false)

/-- A deterministic environment that completes an episode of exactly two
steps (one recorded step with reward `1`, then a terminal step) from every
reset, forever. -/
def cycleEnv : EnvM ℕ ℕ ℕ where
  reset := fun _ => (0, 0)
  step := fun s _ => if s = 0 then (1, 1, 1, false) else (0, 0, 0, true)

/-- A deterministic validation environment whose episode reward strictly
decreases on each successive evaluation: state `(v, phase)`; each episode
emits reward `v` on its single recorded step, terminates on the next step,
and decrements `v` for the following episode. -/
def decEnv : EnvM (ℚ × ℕ) ℕ ℕ where
  reset := fun v => ((v.1, 0), 0)
  step := fun v _ =>
    if v.2 = 0 then ((v.1, 1), 0, v.1, false) else ((v.1 - 1, 0), 0, 0, true)

theorem eps_pos : 0 < eps := by
  unfold eps; positivity

theorem fv_mul_neg_one (x : FV) : FV.mul x (FV.val (-1)) = FV.mul (FV.val (-1)) x := by
  cases x <;> simp [FV.mul, mul_comm]

theorem fvSum_mul_neg_one (l : List FV) :
    fvSum (l.map (fun x => FV.mul x (FV.val (-1)))) = FV.mul (FV.val (-1)) (fvSum l) := by
  induction l with
  | nil => simp [fvSum, FV.mul]
  | cons a t ih =>
    simp only [List.map_cons, fvSum, List.foldr_cons]
    have ht : (t.map (fun x => FV.mul x (FV.val (-1)))).foldr FV.add (FV.val 0) =
        FV.mul (FV.val (-1)) (t.foldr FV.add (FV.val 0)) := ih
    rw [ht]
    cases a with
    | nan => cases t.foldr FV.add (FV.val 0) <;> simp [FV.mul, FV.add]
    | val x =>
      cases t.foldr FV.add (FV.val 0) <;> simp [FV.mul, FV.add] <;> ring

theorem zipWith_mul_neg_one (lp : List ℝ) (nr : List FV) :
    List.zipWith (fun l n => FV.mul (FV.mul (FV.val l) n) (FV.val (-1))) lp nr =
      (List.zipWith (fun l n => FV.mul (FV.val l) n) lp nr).map
        (fun x => FV.mul x (FV.val (-1))) := by
  induction lp generalizing nr with
  | nil => simp
  | cons a t ih => cases nr with
    | nil => simp
    | cons b s => simp [ih]

/-- `get_policy_loss` fails exactly on an empty log-probability list (the
`torch.stack` of an empty list raises); this justifies the emptiness test
used in the ℚ-level orchestrator model below. -/
theorem get_policy_loss_ok_iff (rewards log_probs : List ℝ) :
    (∃ v, get_policy_loss rewards log_probs = Except.ok v) ↔ log_probs ≠ [] := by
  cases log_probs <;> simp [get_policy_loss]

theorem fv_val_add_val (a b : ℝ) : FV.add (FV.val a) (FV.val b) = FV.val (a + b) := rfl

theorem fv_nan_add (x : FV) : FV.add FV.nan x = FV.nan := rfl

theorem fv_add_nan (x : FV) : FV.add x FV.nan = FV.nan := by cases x <;> rfl

theorem fv_val_div_val (a b : ℝ) : FV.div (FV.val a) (FV.val b) = FV.val (a / b) := rfl

theorem fv_div_nan (x : FV) : FV.div x FV.nan = FV.nan := by cases x <;> rfl

theorem fv_val_mul_nan (a : ℝ) : FV.mul (FV.val a) FV.nan = FV.nan := rfl

theorem fv_nan_mul (x : FV) : FV.mul FV.nan x = FV.nan := rfl

theorem list_sum_map_div (l : List ℝ) (f : ℝ → ℝ) (c : ℝ) :
    (l.map (fun x => f x / c)).sum = (l.map f).sum / c := by
  induction l with
  | nil => simp
  | cons a t ih => simp [ih, add_div]

theorem list_sum_map_sub_const (l : List ℝ) (c : ℝ) :
    (l.map (fun x => x - c)).sum = l.sum - l.length * c := by
  induction l with
  | nil => simp
  | cons a t ih =>
    simp only [List.map_cons, List.sum_cons, ih, List.length_cons]
    push_cast
    ring

theorem ssq_nonneg (r : List ℝ) : 0 ≤ ssq r := by
  unfold ssq
  apply List.sum_nonneg
  intro x hx
  obtain ⟨y, _, rfl⟩ := List.mem_map.mp hx
  positivity

theorem normalizeR_sum (r : List ℝ) (h : r ≠ []) : (normalizeR r).sum = 0 := by
  have hn : (r.length : ℝ) ≠ 0 := by
    have h1 : 0 < r.length := List.length_pos.mpr h
    exact_mod_cast h1.ne'
  unfold normalizeR
  rw [list_sum_map_div r (fun x => x - tmean r) (tstdVal r + eps),
    list_sum_map_sub_const]
  unfold tmean
  rw [mul_div_cancel₀ _ hn]
  simp

theorem tmean_normalizeR (r : List ℝ) (h : r ≠ []) : tmean (normalizeR r) = 0 := by
  unfold tmean
  rw [normalizeR_sum r h, zero_div]

theorem ssq_normalizeR (r : List ℝ) (h : r ≠ []) :
    ssq (normalizeR r) = ssq r / (tstdVal r + eps) ^ 2 := by
  unfold ssq
  rw [tmean_normalizeR r h]
  unfold normalizeR
  rw [List.map_map]
  have hfun : ((fun x => (x - 0) ^ 2) ∘ fun x => (x - tmean r) / (tstdVal r + eps)) =
      fun x => (x - tmean r) ^ 2 / (tstdVal r + eps) ^ 2 := by
    funext x
    simp [div_pow]
  rw [hfun, list_sum_map_div r (fun x => (x - tmean r) ^ 2) ((tstdVal r + eps) ^ 2)]

theorem length_pos_cast (r : List ℝ) (h2 : 2 ≤ r.length) : (0 : ℝ) < (r.length : ℝ) - 1 := by
  have : (2 : ℝ) ≤ (r.length : ℝ) := by exact_mod_cast h2
  linarith

theorem tstdVal_pos (r : List ℝ) (h2 : 2 ≤ r.length) (hsq : 0 < ssq r) : 0 < tstdVal r := by
  unfold tstdVal
  exact Real.sqrt_pos.mpr (div_pos hsq (length_pos_cast r h2))

theorem tstdVal_normalizeR (r : List ℝ) (h2 : 2 ≤ r.length) (hsq : 0 < ssq r) :
    tstdVal (normalizeR r) = tstdVal r / (tstdVal r + eps) := by
  have h : r ≠ [] := by
    intro hnil
    rw [hnil] at h2
    simp at h2
  have hc : (0 : ℝ) < tstdVal r + eps := by
    have := tstdVal_pos r h2 hsq
    have := eps_pos
    linarith
  unfold tstdVal
  rw [ssq_normalizeR r h]
  have hlen : ((normalizeR r).length : ℝ) = (r.length : ℝ) := by
    unfold normalizeR
    rw [List.length_map]
  rw [hlen]
  have harg : ssq r / (tstdVal r + eps) ^ 2 / ((r.length : ℝ) - 1) =
      ssq r / ((r.length : ℝ) - 1) / (tstdVal r + eps) ^ 2 := by
    ring
  rw [harg, Real.sqrt_div (div_nonneg (ssq_nonneg r) (length_pos_cast r h2).le),
    Real.sqrt_sq hc.le]
  rfl

theorem normalize_eq_map_val (r : List ℝ) (h2 : 2 ≤ r.length) :
    normalize r = (normalizeR r).map FV.val := by
  unfold normalize normalizeR tstd
  rw [if_neg (by omega)]
  rw [List.map_map]
  apply List.map_congr_left
  intro x _
  rw [Function.comp_apply, fv_val_add_val, fv_val_div_val]

/-- C1.  For every non-empty reward sequence and equal-length
log-probability sequence, `get_policy_loss` returns exactly
`-1 * sum_i (log_probability_i * normalized_reward_i)` with
`normalized_i = (r_i - mean) / (std + ε)`; and whenever the rewards have
nonzero variance (which requires at least two rewards, since `torch.std`
of a shorter tensor is NaN), the normalized sequence is real-valued with
mean exactly 0 and standard deviation within `ε / std(r)` of 1 — the
tolerance set by ε. -/
theorem C1_policy_loss_and_normalization (rewards log_probs : List ℝ) :
    (rewards ≠ [] → log_probs.length = rewards.length →
      get_policy_loss rewards log_probs = Except.ok (specPolicyLoss rewards log_probs)) ∧
    (2 ≤ rewards.length → 0 < ssq rewards →
      normalize rewards = (normalizeR rewards).map FV.val ∧
      tmean (normalizeR rewards) = 0 ∧
      |tstdVal (normalizeR rewards) - 1| ≤ eps / tstdVal rewards) := by
  constructor
  · intro hne hlen
    have hlp : ¬ log_probs.isEmpty = true := by
      cases rewards with
      | nil => exact absurd rfl hne
      | cons a t =>
        cases log_probs with
        | nil => simp at hlen
        | cons b s => simp
    unfold get_policy_loss specPolicyLoss
    rw [if_neg hlp, zipWith_mul_neg_one, fvSum_mul_neg_one]
  · intro h2 hsq
    have h : rewards ≠ [] := by
      intro hnil
      rw [hnil] at h2
      simp at h2
    refine ⟨normalize_eq_map_val rewards h2, tmean_normalizeR rewards h, ?_⟩
    have hs := tstdVal_pos rewards h2 hsq
    have hc : (0 : ℝ) < tstdVal rewards + eps := by
      have := eps_pos
      linarith
    rw [tstdVal_normalizeR rewards h2 hsq]
    have hdiff : tstdVal rewards / (tstdVal rewards + eps) - 1 =
        -(eps / (tstdVal rewards + eps)) := by
      field_simp
    rw [hdiff, abs_neg, abs_of_nonneg (div_nonneg eps_pos.le hc.le)]
    gcongr
    · exact eps_pos.le
    · linarith [eps_pos]

/-- Witness for C1 at rewards `[0, 2]`, log-probabilities `[5, 7]`. -/
theorem C1_witness :
    get_policy_loss [(0 : ℝ), 2] [5, 7] = Except.ok (specPolicyLoss [(0 : ℝ), 2] [5, 7]) ∧
    (normalize [(0 : ℝ), 2] = (normalizeR [(0 : ℝ), 2]).map FV.val ∧
     tmean (normalizeR [(0 : ℝ), 2]) = 0 ∧
     |tstdVal (normalizeR [(0 : ℝ), 2]) - 1| ≤ eps / tstdVal [(0 : ℝ), 2]) :=
  ⟨(C1_policy_loss_and_normalization [0, 2] [5, 7]).1 (by simp) rfl,
   (C1_policy_loss_and_normalization [0, 2] [5, 7]).2 (by norm_num)
     (by norm_num [ssq, tmean])⟩

/-- C5.  For a single-reward trajectory the code raises no division
error, but the normalized value is NaN rather than a finite number:
`torch.std` of a one-element tensor with the default unbiased correction
is NaN (degrees of freedom ≤ 0), and `(x - mean) / (NaN + ε)` is NaN, so
the returned policy loss is NaN as well. -/
theorem C5_single_reward_nan (x lp : ℝ) :
    normalize [x] = [FV.nan] ∧
    (normalize [x]).all FV.isFinite = false ∧
    get_policy_loss [x] [lp] = Except.ok FV.nan := by
  have hnorm : normalize [x] = [FV.nan] := by
    unfold normalize tstd
    rw [if_pos (by simp)]
    simp [fv_nan_add, fv_div_nan]
  refine ⟨hnorm, by rw [hnorm]; rfl, ?_⟩
  unfold get_policy_loss
  rw [if_neg (by simp)]
  rw [hnorm]
  simp [fvSum, fv_val_mul_nan, fv_nan_mul, fv_nan_add]

section ConcreteRuns

attribute [local semireducible] Rat.add Rat.mul Rat.sub Rat.inv Rat.ofScientific

/-- C3.  The source does not skip loss computation on an empty trajectory:
with `train=True` and an environment that signals `done` on the very first
step (here `listEnv` holding `[]`), line 100 calls
`get_policy_loss([], [])`, and `torch.stack([])` raises a RuntimeError, so
the whole `reinforce` call fails instead of skipping the update. -/
theorem C3_empty_trajectory_crash :
    get_policy_loss [] [] = Except.error () ∧
    reinforce listEnv listEnv constAct unitUpdate
      { num_episodes := 1, max_episode_length := 5 } () [] [] = Except.error () :=
  ⟨rfl, by decide⟩

/-- Counterexample to C2 as stated: at `k = 1` (the environment signals
`done` on the first step, so the fixed reward list `r_1..r_{k-1}` is
empty), the call with `num_episodes=1`, `max_episode_length=3 ≥ k` and
default `train=True` raises inside `get_policy_loss` (`torch.stack` of
the empty log-probability list) instead of returning.  Consequently no
`reward_history` at all is returned — in particular not a one-entry one
as the claim requires. -/
theorem C2_k_eq_one_counterexample :
    reinforce listEnv listEnv constAct unitUpdate
      { exploration_rate := 1/2, num_episodes := 1, max_episode_length := 3 }
      () [] [] = Except.error () ∧
    (reinforce listEnv listEnv constAct unitUpdate
      { exploration_rate := 1/2, num_episodes := 1, max_episode_length := 3 }
      () [] []).toOption.map (fun r => r.reward_history) = none :=
  ⟨by decide, by decide⟩

/-- Counterexample to C6 as stated: with `num_episodes = 2`,
`early_stopping` enabled, `early_stopping_freq = 1` and the strictly
decreasing validation environment `decEnv` (successive evaluations yield
10, 9, ...), the early stop fires during the final budgeted iteration, so
the returned `reward_history` has exactly `2 = num_episodes` entries — not
fewer than `num_episodes`. -/
theorem C6_two_episode_budget_counterexample :
    (reinforce cycleEnv decEnv constAct unitUpdate
      { num_episodes := 2, max_episode_length := 5, early_stopping := true,
        early_stopping_freq := 1 } () 0 (10, 0)).toOption.map
      (fun r => (r.reward_history, r.completed)) = some ([1, 1], 2) := by decide

/-- Counterexample to C4 as stated: with `train=False`,
`exploration_min = 1/2` and initial rate `1`, the rate passed to the
action selector at every step is `0`, not the configured
`exploration_min` — lines 67-69 overwrite `exploration_min` itself with
`0` before forcing the rate to it. -/
theorem C4_eval_rate_counterexample :
    (reinforce cycleEnv decEnv constAct unitUpdate
      { exploration_rate := 1, exploration_min := 1/2, train := false,
        num_episodes := 1, max_episode_length := 5 } () 0 (10, 0)).toOption.map
      (fun r => r.actLog.flatten.map ActCall.rate) = some [0, 0] ∧ (0 : ℚ) ≠ 1/2 :=
  ⟨by decide, by decide⟩

/-- Counterexample to C8 as stated (its premises only require the decay
factor in `(0,1]` and initial rate ≥ minimum).  First run: `train=False`
with `exploration_min = 1/3 > 0` — the rates actually used are `0`, below
the configured minimum, because lines 67-69 overwrite the minimum.
Second run: `train=True` with negative configured rates
(`initial = -1 ≥ min = -2`, decay `1/2 ∈ (0,1]`) — the used rates
increase from `-1` to `-1/2` and leave `[min, initial]`. -/
theorem C8_rate_bounds_counterexample :
    ((reinforce cycleEnv decEnv constAct unitUpdate
      { exploration_rate := 1, exploration_decay := 1/2, exploration_min := 1/3,
        train := false, num_episodes := 1, max_episode_length := 5 } () 0 (10, 0)).toOption.map
      (fun r => r.actLog.flatten.map ActCall.rate) = some [0, 0] ∧ (0 : ℚ) < 1/3) ∧
    ((reinforce cycleEnv decEnv constAct unitUpdate
      { exploration_rate := -1, exploration_decay := 1/2, exploration_min := -2,
        train := true, num_episodes := 1, max_episode_length := 5 } () 0 (10, 0)).toOption.map
      (fun r => r.actLog.flatten.map ActCall.rate) = some [-1, -1/2] ∧ (-1 : ℚ) < -1/2) :=
  ⟨⟨by decide, by decide⟩, ⟨by decide, by decide⟩⟩

end ConcreteRuns

section Invariants

variable {π ω ε εv α η : Type}

/-- C7.  Starting the inner loop with the `done` flag false (as every
iteration with a positive step budget effectively does, since the first
step overwrites the flag), the recorded reward and log-probability lists
always have equal length (and likewise the action list); and the number of
action-selector calls exceeds the number of recorded steps by exactly one
when the loop exited on `done` — the terminal step's action, reward and
log-probability are never recorded — and equals it when the budget was
exhausted. -/
theorem C7_trajectory_shape (env : EnvM ε ω α)
    (act : π → ω → Option η → Bool → ℚ → α × ℚ × Option η)
    (recurrent : Bool) (d mn : ℚ) (p : π) (fuel : ℕ) (s : ω) (e : ε)
    (hx : Option η) (xr : ℚ) :
    (rollout env act recurrent d mn p fuel s e hx xr false).rewards.length =
      (rollout env act recurrent d mn p fuel s e hx xr false).log_probs.length ∧
    (rollout env act recurrent d mn p fuel s e hx xr false).actions.length =
      (rollout env act recurrent d mn p fuel s e hx xr false).rewards.length ∧
    (rollout env act recurrent d mn p fuel s e hx xr false).callLog.length =
      (rollout env act recurrent d mn p fuel s e hx xr false).rewards.length +
        (if (rollout env act recurrent d mn p fuel s e hx xr false).done then 1 else 0) := by
  induction fuel generalizing s e hx xr with
  | zero => simp [rollout]
  | succ f ih =>
    simp only [rollout]
    by_cases hdn : (env.step e (act p s hx recurrent xr).1).2.2.2 = true
    · simp [hdn]
    · simp only [Bool.not_eq_true] at hdn
      simp only [hdn, if_neg (Bool.false_ne_true)]
      have := ih (env.step e (act p s hx recurrent xr).1).2.1
        (env.step e (act p s hx recurrent xr).1).1 (act p s hx recurrent xr).2.2
        (max (xr * d) mn)
      simp only [List.length_cons]
      refine ⟨by rw [this.1], by rw [this.2.1], ?_⟩
      rw [this.2.2]
      rcases Bool.eq_false_or_eq_true
        (rollout env act recurrent d mn p f (env.step e (act p s hx recurrent xr).1).2.1
          (env.step e (act p s hx recurrent xr).1).1 (act p s hx recurrent xr).2.2
          (max (xr * d) mn) false).done with hb | hb <;> simp [hb]

/-- Invariant of the outer loop: from any state whose histories have equal
length (equal to the completed-episode counter), any successful run ends
with histories of equal length, still equal to the counter.  Episodes are
appended to both histories together (lines 107-108) and the counter is
bumped alongside (line 112); truncated fragments stay in the accumulators
and never reach the histories. -/
theorem epLoop_hist_len (env : EnvM ε ω α)
    (act : π → ω → Option η → Bool → ℚ → α × ℚ × Option η)
    (tu : π → List ℚ → List ℚ → π) (validator : π → εv → Except Unit (ℚ × π × εv))
    (train recurrent es : Bool) (d mn : ℚ) (mel freq : ℕ) :
    ∀ (m : ℕ) (st : LoopState π ε εv ω α η),
      st.reward_history.length = st.action_history.length →
      st.completed = st.reward_history.length →
      ∀ res, epLoop env act tu validator train recurrent es d mn mel freq m st = Except.ok res →
        res.reward_history.length = res.action_history.length ∧
        res.completed = res.reward_history.length := by
  intro m
  induction m with
  | zero =>
    intro st h1 h2 res hres
    simp only [epLoop] at hres
    injection hres with hres
    subst hres
    exact ⟨h1, h2⟩
  | succ m ih =>
    intro st h1 h2 res hres
    simp only [epLoop] at hres
    split at hres
    · exact absurd hres (by simp)
    · split at hres
      · split at hres
        · split at hres
          · exact absurd hres (by simp)
          · split at hres
            · split at hres
              · injection hres with hres
                subst hres
                refine ⟨by simp [h1], by simp [h2]⟩
              · exact ih _ (by simp [h1]) (by simp [h2]) res hres
            · exact ih _ (by simp [h1]) (by simp [h2]) res hres
        · exact ih _ (by simp [h1]) (by simp [h2]) res hres
      · exact ih _ (by simp [h1]) (by simp [h2]) res hres

/-- C9.  Whenever `reinforce` returns, `reward_history` and
`action_history` have equal length, both equal to the completed-episode
counter: entries are appended pairwise exactly on episode completion, and
truncated, uncompleted trailing fragments (held in the per-episode
accumulators) are discarded without reaching either history.  The
invariant holds at every intermediate loop state as well
(`epLoop_hist_len` is stated from an arbitrary invariant-satisfying
state). -/
theorem C9_history_lengths (env : EnvM ε ω α) (valEnv : EnvM εv ω α)
    (act : π → ω → Option η → Bool → ℚ → α × ℚ × Option η)
    (tu : π → List ℚ → List ℚ → π) (cfg : Cfg) (p : π) (e : ε) (ve : εv)
    (res : RunResult π ε εv α η)
    (hres : reinforce env valEnv act tu cfg p e ve = Except.ok res) :
    res.reward_history.length = res.action_history.length ∧
    res.completed = res.reward_history.length := by
  simp only [reinforce, reinforceCore] at hres
  exact epLoop_hist_len env act tu _ _ _ _ _ _ _ _ _ _ rfl rfl res hres

/-- Invariant of the inner loop call log: the first recorded
action-selector call receives exactly the hidden state the rollout was
started with, and every later call receives the hidden state returned by
the immediately preceding call. -/
theorem rollout_hx_chain (env : EnvM ε ω α)
    (act : π → ω → Option η → Bool → ℚ → α × ℚ × Option η)
    (recurrent : Bool) (d mn : ℚ) (p : π) (fuel : ℕ) (s : ω) (e : ε)
    (hx : Option η) (xr : ℚ) (dn : Bool) :
    (∀ c ∈ (rollout env act recurrent d mn p fuel s e hx xr dn).callLog.head?, c.hxIn = hx) ∧
    List.Chain' (fun a b => b.hxIn = a.hxOut)
      (rollout env act recurrent d mn p fuel s e hx xr dn).callLog := by
  induction fuel generalizing s e hx xr dn with
  | zero => simp [rollout]
  | succ f ih =>
    simp only [rollout]
    by_cases hdn : (env.step e (act p s hx recurrent xr).1).2.2.2 = true
    · simp [hdn]
    · simp only [Bool.not_eq_true] at hdn
      simp only [hdn, if_neg (Bool.false_ne_true)]
      have := ih (env.step e (act p s hx recurrent xr).1).2.1
        (env.step e (act p s hx recurrent xr).1).1 (act p s hx recurrent xr).2.2
        (max (xr * d) mn) false
      refine ⟨by simp, ?_⟩
      rw [List.chain'_cons']
      exact ⟨fun b hb => this.1 b hb, this.2⟩

/-- Invariant of the outer loop: every per-iteration call log starts from
hidden state `None` and chains hidden states within the iteration.  The
rollout of each outer iteration is started with `hx = None` (line 85). -/
theorem epLoop_hx_reset (env : EnvM ε ω α)
    (act : π → ω → Option η → Bool → ℚ → α × ℚ × Option η)
    (tu : π → List ℚ → List ℚ → π) (validator : π → εv → Except Unit (ℚ × π × εv))
    (train recurrent es : Bool) (d mn : ℚ) (mel freq : ℕ) :
    ∀ (m : ℕ) (st : LoopState π ε εv ω α η),
      (∀ L ∈ st.actLog, (∀ c ∈ L.head?, c.hxIn = none) ∧
        List.Chain' (fun a b => b.hxIn = a.hxOut) L) →
      ∀ res, epLoop env act tu validator train recurrent es d mn mel freq m st = Except.ok res →
        ∀ L ∈ res.actLog, (∀ c ∈ L.head?, c.hxIn = none) ∧
          List.Chain' (fun a b => b.hxIn = a.hxOut) L := by
  intro m
  induction m with
  | zero =>
    intro st h1 res hres
    simp only [epLoop] at hres
    injection hres with hres
    subst hres
    exact h1
  | succ m ih =>
    intro st h1 res hres
    have hlog : ∀ L ∈ st.actLog ++
        [(rollout env act recurrent d mn st.p mel st.obs st.e none st.xr st.done).callLog],
        (∀ c ∈ L.head?, c.hxIn = none) ∧
          List.Chain' (fun a b => b.hxIn = a.hxOut) L := by
      intro L hL
      rcases List.mem_append.mp hL with hL | hL
      · exact h1 L hL
      · rcases List.mem_singleton.mp hL with rfl
        exact rollout_hx_chain env act recurrent d mn st.p mel st.obs st.e none st.xr st.done
    simp only [epLoop] at hres
    split at hres
    · exact absurd hres (by simp)
    · split at hres
      · split at hres
        · split at hres
          · exact absurd hres (by simp)
          · split at hres
            · split at hres
              · injection hres with hres
                subst hres
                exact hlog
              · exact ih _ hlog res hres
            · exact ih _ hlog res hres
        · exact ih _ hlog res hres
      · exact ih _ hlog res hres

/-- C10.  The recurrent hidden state is reset to `None` at the start of
every outer iteration (line 85): in the ghost call log of any successful
`reinforce` run, the first action-selector call of each outer iteration
receives hidden state `None`, and within an iteration each call receives
the hidden state returned by the previous one — so the hidden state never
carries over from one outer iteration to the next, even when a truncated
episode spans several outer iterations. -/
theorem C10_hidden_state_reset (env : EnvM ε ω α) (valEnv : EnvM εv ω α)
    (act : π → ω → Option η → Bool → ℚ → α × ℚ × Option η)
    (tu : π → List ℚ → List ℚ → π) (cfg : Cfg) (p : π) (e : ε) (ve : εv)
    (res : RunResult π ε εv α η)
    (hres : reinforce env valEnv act tu cfg p e ve = Except.ok res) :
    ∀ L ∈ res.actLog, (∀ c ∈ L.head?, c.hxIn = none) ∧
      List.Chain' (fun a b => b.hxIn = a.hxOut) L := by
  simp only [reinforce, reinforceCore] at hres
  exact epLoop_hx_reset env act tu _ _ _ _ _ _ _ _ _ _ (by simp) res hres

/-- In evaluation mode both the exploration rate and the (local) minimum
are `0`, and they stay `0` through the decay `max(rate*decay, min)`. -/
theorem rollout_rate_zero (env : EnvM ε ω α)
    (act : π → ω → Option η → Bool → ℚ → α × ℚ × Option η)
    (recurrent : Bool) (d : ℚ) (p : π) (fuel : ℕ) (s : ω) (e : ε)
    (hx : Option η) (dn : Bool) :
    (∀ c ∈ (rollout env act recurrent d 0 p fuel s e hx 0 dn).callLog, c.rate = 0) ∧
    (rollout env act recurrent d 0 p fuel s e hx 0 dn).rate = 0 := by
  induction fuel generalizing s e hx dn with
  | zero => simp [rollout]
  | succ f ih =>
    simp only [rollout]
    by_cases hdn : (env.step e (act p s hx recurrent 0).1).2.2.2 = true
    · simp [hdn]
    · simp only [Bool.not_eq_true] at hdn
      simp only [hdn, if_neg (Bool.false_ne_true)]
      have hmax : max ((0 : ℚ) * d) 0 = 0 := by
        rw [zero_mul, max_self]
      rw [hmax]
      have := ih (env.step e (act p s hx recurrent 0).1).2.1
        (env.step e (act p s hx recurrent 0).1).1 (act p s hx recurrent 0).2.2 false
      refine ⟨?_, this.2⟩
      intro c hc
      rcases List.mem_cons.mp hc with rfl | hc
      · rfl
      · exact this.1 c hc

/-- With `train=False` (so the rate and local minimum are `0`) and a
validator that returns the policy parameters unchanged, the loop leaves
the parameters unchanged and every rate it passes to the action selector
is `0`. -/
theorem epLoop_eval_mode (env : EnvM ε ω α)
    (act : π → ω → Option η → Bool → ℚ → α × ℚ × Option η)
    (tu : π → List ℚ → List ℚ → π) (validator : π → εv → Except Unit (ℚ × π × εv))
    (recurrent es : Bool) (d : ℚ) (mel freq : ℕ)
    (hv : ∀ (q : π) (w : εv) r, validator q w = Except.ok r → r.2.1 = q) :
    ∀ (m : ℕ) (st : LoopState π ε εv ω α η) (p0 : π),
      st.p = p0 → st.xr = 0 →
      (∀ c ∈ st.actLog.flatten, c.rate = 0) →
      ∀ res, epLoop env act tu validator false recurrent es d 0 mel freq m st = Except.ok res →
        res.p = p0 ∧ ∀ c ∈ res.actLog.flatten, c.rate = 0 := by
  intro m
  induction m with
  | zero =>
    intro st p0 hp hxr hl res hres
    simp only [epLoop] at hres
    injection hres with hres
    subst hres
    exact ⟨hp, hl⟩
  | succ m ih =>
    intro st p0 hp hxr hl res hres
    simp only [epLoop] at hres
    rw [hxr] at hres
    have hroll := rollout_rate_zero env act recurrent d st.p mel st.obs st.e none st.done
    have hlog : ∀ c ∈ (st.actLog ++
        [(rollout env act recurrent d 0 st.p mel st.obs st.e none 0 st.done).callLog]).flatten,
        c.rate = 0 := by
      intro c hc
      rw [List.flatten_append] at hc
      rcases List.mem_append.mp hc with hc | hc
      · exact hl c hc
      · rw [List.flatten_cons, List.flatten_nil, List.append_nil] at hc
        exact hroll.1 c hc
    split at hres
    · exact absurd hres (by simp)
    · split at hres
      · split at hres
        · split at hres
          · exact absurd hres (by simp)
          · rename_i vpe hvpe
            split at hres
            · split at hres
              · injection hres with hres
                subst hres
                exact ⟨(hv _ _ _ hvpe).trans (by simp [hp]), hlog⟩
              · exact ih _ p0 ((hv _ _ _ hvpe).trans (by simp [hp])) hroll.2 hlog res hres
            · exact ih _ p0 ((hv _ _ _ hvpe).trans (by simp [hp])) hroll.2 hlog res hres
        · exact ih _ p0 (by simp [hp]) hroll.2 hlog res hres
      · exact ih _ p0 (by simp [hp]) hroll.2 hlog res hres

/-- The nested validation run of line 122 has `train=False`, so it returns
the policy parameters it was given (its own validator slot is dead code:
`early_stopping=False` there). -/
theorem valValidator_params (valEnv : EnvM εv ω α)
    (act : π → ω → Option η → Bool → ℚ → α × ℚ × Option η)
    (tu : π → List ℚ → List ℚ → π) (recurrent : Bool)
    (q : π) (w : εv) (r : ℚ × π × εv)
    (h : valValidator valEnv act tu recurrent q w = Except.ok r) : r.2.1 = q := by
  unfold valValidator at h
  split at h
  · exact absurd h (by simp)
  · split at h
    · exact absurd h (by simp)
    · rename_i res1 hcore1 lst v t hhist
      injection h with h
      subst h
      have hcore2 := hcore1
      simp only [reinforceCore, nestedCfg] at hcore2
      refine (epLoop_eval_mode _ _ _ _ _ _ _ _ _
        (fun q2 w2 r2 hr2 => by simp [deadValidator] at hr2)
        _ _ q rfl ?_ ?_ res1 hcore2).1
      · rfl
      · simp

/-- C4, amended.  With `train=False` the exploration rate passed to the
action selector at every step is `0` — not the configured
`exploration_min`, which lines 67-69 overwrite with `0` — regardless of
the configured initial rate; and no optimization step is ever invoked:
for every parameter-update function the returned parameters equal the
initial ones. -/
theorem C4_eval_mode_amended (env : EnvM ε ω α) (valEnv : EnvM εv ω α)
    (act : π → ω → Option η → Bool → ℚ → α × ℚ × Option η)
    (tu : π → List ℚ → List ℚ → π) (cfg : Cfg) (p : π) (e : ε) (ve : εv)
    (htrain : cfg.train = false) (res : RunResult π ε εv α η)
    (hres : reinforce env valEnv act tu cfg p e ve = Except.ok res) :
    res.p = p ∧ ∀ c ∈ res.actLog.flatten, c.rate = 0 := by
  simp only [reinforce, reinforceCore, htrain, Bool.false_eq_true, if_false] at hres
  exact epLoop_eval_mode env act tu _ _ _ _ _ _
    (valValidator_params valEnv act tu cfg.recurrent) _ _ p rfl rfl (by simp) res hres

/-- Rate schedule facts for one rollout, given decay factor at most `1`
and a nonnegative minimum not exceeding the current rate: every rate
passed to the action selector lies in `[mn, xr]`, consecutive rates are
non-increasing, the first equals `xr`, and the final rate is at most every
logged rate and stays in `[mn, xr]`. -/
theorem rollout_rate_bounds (env : EnvM ε ω α)
    (act : π → ω → Option η → Bool → ℚ → α × ℚ × Option η)
    (recurrent : Bool) (d mn : ℚ) (hd1 : d ≤ 1) (hm0 : 0 ≤ mn) (p : π) :
    ∀ (fuel : ℕ) (s : ω) (e : ε) (hx : Option η) (dn : Bool) (xr : ℚ), mn ≤ xr →
    (∀ c ∈ (rollout env act recurrent d mn p fuel s e hx xr dn).callLog,
        mn ≤ c.rate ∧ c.rate ≤ xr) ∧
    List.Chain' (fun a b => b.rate ≤ a.rate)
      (rollout env act recurrent d mn p fuel s e hx xr dn).callLog ∧
    (∀ c ∈ (rollout env act recurrent d mn p fuel s e hx xr dn).callLog.head?, c.rate = xr) ∧
    mn ≤ (rollout env act recurrent d mn p fuel s e hx xr dn).rate ∧
    (rollout env act recurrent d mn p fuel s e hx xr dn).rate ≤ xr ∧
    (∀ c ∈ (rollout env act recurrent d mn p fuel s e hx xr dn).callLog.getLast?,
        (rollout env act recurrent d mn p fuel s e hx xr dn).rate ≤ c.rate) := by
  intro fuel
  induction fuel with
  | zero =>
    intro s e hx dn xr hxr
    simp [rollout, hxr]
  | succ f ih =>
    intro s e hx dn xr hxr
    simp only [rollout]
    by_cases hdn : (env.step e (act p s hx recurrent xr).1).2.2.2 = true
    · simp [hdn, hxr]
    · simp only [Bool.not_eq_true] at hdn
      simp only [hdn, if_neg (Bool.false_ne_true)]
      have hxr2 : mn ≤ max (xr * d) mn := le_max_right _ _
      have hxr3 : max (xr * d) mn ≤ xr := by
        apply max_le _ hxr
        calc xr * d ≤ xr * 1 := by
              apply mul_le_mul_of_nonneg_left hd1 (le_trans hm0 hxr)
          _ = xr := mul_one xr
      have hr := ih (env.step e (act p s hx recurrent xr).1).2.1
        (env.step e (act p s hx recurrent xr).1).1 (act p s hx recurrent xr).2.2 false
        (max (xr * d) mn) hxr2
      refine ⟨?_, ?_, by simp, ?_, ?_, ?_⟩
      · intro c hc
        rcases List.mem_cons.mp hc with rfl | hc
        · exact ⟨hxr, le_refl xr⟩
        · exact ⟨(hr.1 c hc).1, le_trans (hr.1 c hc).2 hxr3⟩
      · rw [List.chain'_cons']
        refine ⟨?_, hr.2.1⟩
        intro b hb
        rw [hr.2.2.1 b hb]
        exact hxr3
      · exact hr.2.2.2.1
      · exact le_trans hr.2.2.2.2.1 hxr3
      · intro c hc
        cases hcl : (rollout env act recurrent d mn p f
            (env.step e (act p s hx recurrent xr).1).2.1
            (env.step e (act p s hx recurrent xr).1).1 (act p s hx recurrent xr).2.2
            (max (xr * d) mn) false).callLog with
        | nil =>
          rw [hcl] at hc
          rcases (by simpa using hc :
            (⟨hx, (act p s hx recurrent xr).2.2, xr⟩ : ActCall η) = c) with rfl
          exact le_trans hr.2.2.2.2.1 hxr3
        | cons a l =>
          rw [hcl, List.getLast?_cons_cons] at hc
          have := hr.2.2.2.2.2 c (by rw [hcl]; exact hc)
          exact this

/-- The outer-loop rate invariant: starting from a rate in `[mn, xr0]`
whose ghost log is non-increasing, bounded by `[mn, xr0]`, and ends no
lower than the current rate, any successful continuation keeps every
logged rate in `[mn, xr0]` with the whole flattened sequence
non-increasing.  The exploration rate is carried across outer iterations
without reset, so the chain extends across episode boundaries. -/
theorem epLoop_rate_bounds (env : EnvM ε ω α)
    (act : π → ω → Option η → Bool → ℚ → α × ℚ × Option η)
    (tu : π → List ℚ → List ℚ → π) (validator : π → εv → Except Unit (ℚ × π × εv))
    (train recurrent es : Bool) (d mn xr0 : ℚ) (mel freq : ℕ)
    (hd1 : d ≤ 1) (hm0 : 0 ≤ mn) :
    ∀ (m : ℕ) (st : LoopState π ε εv ω α η),
      mn ≤ st.xr → st.xr ≤ xr0 →
      (∀ c ∈ st.actLog.flatten, mn ≤ c.rate ∧ c.rate ≤ xr0) →
      List.Chain' (fun a b => b.rate ≤ a.rate) st.actLog.flatten →
      (∀ c ∈ st.actLog.flatten.getLast?, st.xr ≤ c.rate) →
      ∀ res, epLoop env act tu validator train recurrent es d mn mel freq m st = Except.ok res →
        (∀ c ∈ res.actLog.flatten, mn ≤ c.rate ∧ c.rate ≤ xr0) ∧
        List.Chain' (fun a b => b.rate ≤ a.rate) res.actLog.flatten := by
  intro m
  induction m with
  | zero =>
    intro st h1 h2 h3 h4 h5 res hres
    simp only [epLoop] at hres
    injection hres with hres
    subst hres
    exact ⟨h3, h4⟩
  | succ m ih =>
    intro st h1 h2 h3 h4 h5 res hres
    have hr := rollout_rate_bounds env act recurrent d mn hd1 hm0 st.p mel st.obs st.e none
      st.done st.xr h1
    have hflat : (st.actLog ++
        [(rollout env act recurrent d mn st.p mel st.obs st.e none st.xr st.done).callLog]).flatten =
        st.actLog.flatten ++
          (rollout env act recurrent d mn st.p mel st.obs st.e none st.xr st.done).callLog := by
      rw [List.flatten_append, List.flatten_cons, List.flatten_nil, List.append_nil]
    have hall : ∀ c ∈ (st.actLog ++
        [(rollout env act recurrent d mn st.p mel st.obs st.e none st.xr st.done).callLog]).flatten,
        mn ≤ c.rate ∧ c.rate ≤ xr0 := by
      rw [hflat]
      intro c hc
      rcases List.mem_append.mp hc with hc | hc
      · exact h3 c hc
      · exact ⟨(hr.1 c hc).1, le_trans (hr.1 c hc).2 h2⟩
    have hchain : List.Chain' (fun a b => b.rate ≤ a.rate) (st.actLog ++
        [(rollout env act recurrent d mn st.p mel st.obs st.e none st.xr st.done).callLog]).flatten := by
      rw [hflat, List.chain'_append]
      refine ⟨h4, hr.2.1, ?_⟩
      intro x hx y hy
      rw [hr.2.2.1 y hy]
      exact h5 x hx
    have hxrb : mn ≤ (rollout env act recurrent d mn st.p mel st.obs st.e none st.xr
        st.done).rate ∧
        (rollout env act recurrent d mn st.p mel st.obs st.e none st.xr st.done).rate ≤ xr0 :=
      ⟨hr.2.2.2.1, le_trans hr.2.2.2.2.1 h2⟩
    have hlast : ∀ c ∈ (st.actLog ++
        [(rollout env act recurrent d mn st.p mel st.obs st.e none st.xr st.done).callLog]).flatten.getLast?,
        (rollout env act recurrent d mn st.p mel st.obs st.e none st.xr st.done).rate ≤ c.rate := by
      rw [hflat]
      intro c hc
      rw [List.getLast?_append] at hc
      cases hrl : (rollout env act recurrent d mn st.p mel st.obs st.e none st.xr
          st.done).callLog.getLast? with
      | some x =>
        rw [hrl] at hc
        have hcx : x = c := by simpa [Option.or] using hc
        subst hcx
        exact hr.2.2.2.2.2 x (by simp [hrl])
      | none =>
        rw [hrl] at hc
        have hc2 : c ∈ st.actLog.flatten.getLast? := by simpa [Option.or] using hc
        exact le_trans hr.2.2.2.2.1 (h5 c hc2)
    simp only [epLoop] at hres
    split at hres
    · exact absurd hres (by simp)
    · split at hres
      · split at hres
        · split at hres
          · exact absurd hres (by simp)
          · split at hres
            · split at hres
              · injection hres with hres
                subst hres
                exact ⟨hall, hchain⟩
              · exact ih _ hxrb.1 hxrb.2 hall hchain hlast res hres
            · exact ih _ hxrb.1 hxrb.2 hall hchain hlast res hres
        · exact ih _ hxrb.1 hxrb.2 hall hchain hlast res hres
      · exact ih _ hxrb.1 hxrb.2 hall hchain hlast res hres

/-- C8, amended.  For a `train=True` run with decay factor in `(0, 1]`
and `0 ≤ exploration_min ≤ initial exploration rate`, every exploration
rate passed to the action selector lies in
`[exploration_min, exploration_rate]`, and the sequence of rates across
interaction steps (in order, across episode boundaries, which never reset
the rate) is non-increasing.  The original claim is false without
`train=True` (lines 67-69 overwrite the minimum with `0` in evaluation
mode) and without `0 ≤ exploration_min` (a negative rate moves up toward
`max(rate*decay, min)`); see the counterexample. -/
theorem C8_rate_monotone_amended (env : EnvM ε ω α) (valEnv : EnvM εv ω α)
    (act : π → ω → Option η → Bool → ℚ → α × ℚ × Option η)
    (tu : π → List ℚ → List ℚ → π) (cfg : Cfg) (p : π) (e : ε) (ve : εv)
    (htrain : cfg.train = true) (_hd0 : 0 < cfg.exploration_decay)
    (hd1 : cfg.exploration_decay ≤ 1) (hm0 : 0 ≤ cfg.exploration_min)
    (hmr : cfg.exploration_min ≤ cfg.exploration_rate)
    (res : RunResult π ε εv α η)
    (hres : reinforce env valEnv act tu cfg p e ve = Except.ok res) :
    (∀ c ∈ res.actLog.flatten,
        cfg.exploration_min ≤ c.rate ∧ c.rate ≤ cfg.exploration_rate) ∧
    List.Chain' (fun a b => b.rate ≤ a.rate) res.actLog.flatten := by
  simp only [reinforce, reinforceCore, htrain, if_pos] at hres
  exact epLoop_rate_bounds env act tu _ _ _ _ cfg.exploration_decay cfg.exploration_min
    cfg.exploration_rate _ _ hd1 hm0 _ _ hmr (le_refl _) (by simp) (by simp) (by simp) res hres

/-- Rollout against `listEnv`: starting with reward list `rs` and at
least `rs.length + 1` step budget, the loop records exactly the rewards
`rs` (with as many actions and log-probabilities), then observes `done`
on step `rs.length + 1` and stops, leaving the environment exhausted. -/
theorem listEnv_rollout {π η : Type}
    (act : π → List ℚ → Option η → Bool → ℚ → ℕ × ℚ × Option η)
    (recurrent : Bool) (d mn : ℚ) :
    ∀ (rs : List ℚ) (fuel : ℕ), rs.length + 1 ≤ fuel →
      ∀ (p : π) (s : List ℚ) (hx : Option η) (xr : ℚ) (dn : Bool),
      (rollout listEnv act recurrent d mn p fuel s rs hx xr dn).rewards = rs ∧
      (rollout listEnv act recurrent d mn p fuel s rs hx xr dn).actions.length = rs.length ∧
      (rollout listEnv act recurrent d mn p fuel s rs hx xr dn).log_probs.length = rs.length ∧
      (rollout listEnv act recurrent d mn p fuel s rs hx xr dn).done = true ∧
      (rollout listEnv act recurrent d mn p fuel s rs hx xr dn).env = [] := by
  intro rs
  induction rs with
  | nil =>
    intro fuel hf p s hx xr dn
    cases fuel with
    | zero => omega
    | succ f => simp [rollout, listEnv]
  | cons r t ih =>
    intro fuel hf p s hx xr dn
    cases fuel with
    | zero => simp at hf
    | succ f =>
      have ht := ih f (by simpa using hf) p t
        (act p s hx recurrent xr).2.2 (max (xr * d) mn) false
      simp only [rollout, listEnv]
      simp only [List.length_cons]
      refine ⟨?_, ?_, ?_, ?_, ?_⟩
      · simpa using ht.1
      · simpa using ht.2.1
      · simpa using ht.2.2.1
      · simpa using ht.2.2.2.1
      · simpa using ht.2.2.2.2

/-- C2, amended.  For a deterministic environment that terminates after
exactly `k` steps with fixed rewards `r_1..r_{k-1}` — here `listEnv`
holding `rs = [r_1, ..., r_{k-1}]`, so `k = rs.length + 1` — with
`num_episodes = 1`, `max_episode_length ≥ k`, and `k ≥ 2` (a non-empty
recorded trajectory; at `k = 1` the default `train=True` run instead
raises inside `get_policy_loss`, see the counterexample), the call
returns a `reward_history` with exactly one entry equal to
`sum(r_1..r_{k-1})`, and `action_history[0]` has length `k-1`. -/
theorem C2_histories_amended {π εv η : Type}
    (act : π → List ℚ → Option η → Bool → ℚ → ℕ × ℚ × Option η)
    (tu : π → List ℚ → List ℚ → π) (valEnv : EnvM εv (List ℚ) ℕ)
    (xr d mn : ℚ) (recurrent : Bool) (fq : ℕ) (rs : List ℚ) (hne : rs ≠ [])
    (mel : ℕ) (hmel : rs.length + 1 ≤ mel) (p : π) (ve : εv) :
    (reinforce listEnv valEnv act tu
      { exploration_rate := xr, exploration_decay := d, exploration_min := mn,
        num_episodes := 1, max_episode_length := mel, train := true,
        recurrent := recurrent, early_stopping := false, early_stopping_freq := fq }
      p rs ve).toOption.map
      (fun r => (r.reward_history, r.action_history.length,
        r.action_history.head?.map List.length, r.completed)) =
      some ([rs.sum], 1, some rs.length, 1) := by
  obtain ⟨hrew, hact, hlp, hdone, henv⟩ :=
    listEnv_rollout act recurrent d mn rs mel hmel p rs none xr false
  have hlpe : (rollout listEnv act recurrent d mn p mel rs rs none xr
      false).log_probs.isEmpty = false := by
    cases hl : (rollout listEnv act recurrent d mn p mel rs rs none xr false).log_probs with
    | nil =>
      rw [hl] at hlp
      cases rs with
      | nil => exact absurd rfl hne
      | cons a t => simp at hlp
    | cons a l => simp
  have hreset : listEnv.reset rs = (rs, rs) := rfl
  have hreset2 : listEnv.reset [] = ([], []) := rfl
  simp only [reinforce, reinforceCore, hreset, epLoop]
  simp only [hreset, hlpe, hdone, henv, hreset2, Bool.true_and, Bool.false_and,
    Bool.false_eq_true, if_false, if_true, hrew, mkResult]
  simp [hact]
  exact ⟨_, rfl, rfl, rfl, ⟨_, rfl, hact⟩, rfl⟩

/-- The recorded reward and log-probability (and action) lists of a
rollout have equal length, from any incoming `done` flag. -/
theorem rollout_lengths (env : EnvM ε ω α)
    (act : π → ω → Option η → Bool → ℚ → α × ℚ × Option η)
    (recurrent : Bool) (d mn : ℚ) (p : π) :
    ∀ (fuel : ℕ) (s : ω) (e : ε) (hx : Option η) (xr : ℚ) (dn : Bool),
    (rollout env act recurrent d mn p fuel s e hx xr dn).rewards.length =
      (rollout env act recurrent d mn p fuel s e hx xr dn).log_probs.length ∧
    (rollout env act recurrent d mn p fuel s e hx xr dn).actions.length =
      (rollout env act recurrent d mn p fuel s e hx xr dn).rewards.length := by
  intro fuel
  induction fuel with
  | zero => intro s e hx xr dn; simp [rollout]
  | succ f ih =>
    intro s e hx xr dn
    simp only [rollout]
    by_cases hdn : (env.step e (act p s hx recurrent xr).1).2.2.2 = true
    · simp [hdn]
    · simp only [Bool.not_eq_true] at hdn
      simp only [hdn, if_neg (Bool.false_ne_true)]
      have := ih (env.step e (act p s hx recurrent xr).1).2.1
        (env.step e (act p s hx recurrent xr).1).1 (act p s hx recurrent xr).2.2
        (max (xr * d) mn) false
      simp [this.1, this.2]

/-- C6, amended.  Suppose `early_stopping` is enabled with
`early_stopping_freq = 1`, every outer iteration completes an episode with
a non-empty trajectory (hypothesis `Htr`: from any reset point the rollout
ends with `done=True` and at least one recorded reward within the step
budget), and the validation protocol is deterministic with strictly
decreasing rewards (`Hval`, `Hdec`).  If additionally
`num_episodes ≥ 3` — the original claim is false at `num_episodes = 2`,
where the stop fires only on the final budgeted iteration, see the
counterexample — then the run returns at the second validation, with
exactly two completed episodes recorded: fewer than `num_episodes`. -/
theorem C6_early_stop_amended (env : EnvM ε ω α) (valEnv : EnvM εv ω α)
    (act : π → ω → Option η → Bool → ℚ → α × ℚ × Option η)
    (tu : π → List ℚ → List ℚ → π) (cfg : Cfg) (p : π) (e : ε) (ve : εv)
    (hes : cfg.early_stopping = true) (hfq : cfg.early_stopping_freq = 1)
    (hN : 3 ≤ cfg.num_episodes)
    (vRew : εv → ℚ) (vNext : εv → εv)
    (Hval : ∀ (q : π) (w : εv),
      valValidator valEnv act tu cfg.recurrent q w = Except.ok (vRew w, q, vNext w))
    (Hdec : ∀ w, vRew (vNext w) < vRew w)
    (Htr : ∀ (q : π) (e2 : ε) (xr : ℚ) (dn : Bool),
      ∃ acts rews lps s3 e3 xr3 lg,
        rollout env act cfg.recurrent cfg.exploration_decay
          (if cfg.train then cfg.exploration_min else 0) q cfg.max_episode_length
          (env.reset e2).2 (env.reset e2).1 none xr dn =
          ⟨acts, rews, lps, s3, e3, xr3, true, lg⟩ ∧ rews ≠ []) :
    ∃ res, reinforce env valEnv act tu cfg p e ve = Except.ok res ∧
      res.reward_history.length = 2 ∧ res.completed = 2 ∧
      res.reward_history.length < cfg.num_episodes := by
  obtain ⟨M, hM⟩ : ∃ M, cfg.num_episodes = M + 2 + 1 := ⟨cfg.num_episodes - 3, by omega⟩
  obtain ⟨a1, r1, l1, s1, e1, x1, g1, hro1, hr1⟩ :=
    Htr p (env.reset e).1 (if cfg.train then cfg.exploration_rate else 0) false
  obtain ⟨a2, r2, l2, s2, e2, x2, g2, hro2, hr2⟩ :=
    Htr (if cfg.train then tu p r1 l1 else p) e1 x1 true
  have hlen1 := rollout_lengths env act cfg.recurrent cfg.exploration_decay
    (if cfg.train then cfg.exploration_min else 0) p cfg.max_episode_length
    (env.reset (env.reset e).1).2 (env.reset (env.reset e).1).1 none
    (if cfg.train then cfg.exploration_rate else 0) false
  rw [hro1] at hlen1
  have hl1 : l1.isEmpty = false := by
    cases l1 with
    | nil => exact absurd (List.length_eq_zero.mp (by simpa using hlen1.1)) hr1
    | cons q qs => rfl
  have hlen2 := rollout_lengths env act cfg.recurrent cfg.exploration_decay
    (if cfg.train then cfg.exploration_min else 0) (if cfg.train then tu p r1 l1 else p)
    cfg.max_episode_length (env.reset e1).2 (env.reset e1).1 none x1 true
  rw [hro2] at hlen2
  have hl2 : l2.isEmpty = false := by
    cases l2 with
    | nil => exact absurd (List.length_eq_zero.mp (by simpa using hlen2.1)) hr2
    | cons q qs => rfl
  simp only [reinforce, reinforceCore]
  rw [hes, hfq, hM]
  simp only [epLoop]
  rw [hro1]
  simp only [hl1, Bool.and_false, Bool.false_eq_true, if_false, if_true, Nat.mod_one,
    beq_self_eq_true, Bool.and_true, Bool.true_and, List.getLast?_nil]
  rw [Hval]
  simp only [List.nil_append]
  rw [hro2]
  simp only [hl2, Bool.and_false, Bool.false_eq_true, if_false, if_true, Nat.mod_one,
    beq_self_eq_true, Bool.and_true, Bool.true_and, List.nil_append]
  rw [Hval]
  simp only [List.getLast?_singleton]
  rw [if_pos (Hdec ve)]
  refine ⟨_, rfl, by simp, by simp, ?_⟩
  simp

end Invariants

section MoreConcreteRuns

attribute [local semireducible] Rat.add Rat.mul Rat.sub Rat.inv Rat.ofScientific

/-- Witness for C9: a one-episode training run against `cycleEnv`; the
returned histories have equal length, equal to the completed counter. -/
theorem C9_witness :
    (⟨[1], [[0]], (), 0, (10, 0), 1, [[⟨none, none, 1⟩, ⟨none, none, 9999/10000⟩]]⟩ :
        RunResult Unit ℕ (ℚ × ℕ) ℕ Unit).reward_history.length =
      (⟨[1], [[0]], (), 0, (10, 0), 1, [[⟨none, none, 1⟩, ⟨none, none, 9999/10000⟩]]⟩ :
        RunResult Unit ℕ (ℚ × ℕ) ℕ Unit).action_history.length ∧
    (⟨[1], [[0]], (), 0, (10, 0), 1, [[⟨none, none, 1⟩, ⟨none, none, 9999/10000⟩]]⟩ :
        RunResult Unit ℕ (ℚ × ℕ) ℕ Unit).completed =
      (⟨[1], [[0]], (), 0, (10, 0), 1, [[⟨none, none, 1⟩, ⟨none, none, 9999/10000⟩]]⟩ :
        RunResult Unit ℕ (ℚ × ℕ) ℕ Unit).reward_history.length :=
  C9_history_lengths cycleEnv decEnv constAct unitUpdate
    { num_episodes := 1, max_episode_length := 5 } () 0 (10, 0) _ (by decide)

/-- Witness for C10: in a concrete two-episode run, the first iteration's
call log starts from hidden state `None` and chains hidden states. -/
theorem C10_witness :
    (∀ c ∈ ([(⟨none, none, 1⟩ : ActCall Unit),
        ⟨none, none, 9999/10000⟩] : List (ActCall Unit)).head?, c.hxIn = none) ∧
    List.Chain' (fun a b => b.hxIn = a.hxOut)
      ([(⟨none, none, 1⟩ : ActCall Unit), ⟨none, none, 9999/10000⟩] :
        List (ActCall Unit)) :=
  C10_hidden_state_reset cycleEnv decEnv constAct unitUpdate
    { num_episodes := 2, max_episode_length := 4 } () 0 (10, 0)
    ⟨[1, 1], [[0], [0]], (), 0, (10, 0), 2,
      [[⟨none, none, 1⟩, ⟨none, none, 9999/10000⟩],
       [⟨none, none, 9999/10000⟩, ⟨none, none, 99980001/100000000⟩]]⟩ (by decide)
    [⟨none, none, 1⟩, ⟨none, none, 9999/10000⟩] (by simp)

/-- Witness for the amended C4: a concrete `train=False` run with
configured minimum `1/2` and initial rate `1`; the parameters come back
unchanged and every rate the action selector saw is `0`. -/
theorem C4_witness :
    (⟨[1], [[0]], (), 0, (10, 0), 1, [[⟨none, none, 0⟩, ⟨none, none, 0⟩]]⟩ :
        RunResult Unit ℕ (ℚ × ℕ) ℕ Unit).p = () ∧
    ∀ c ∈ (⟨[1], [[0]], (), 0, (10, 0), 1, [[⟨none, none, 0⟩, ⟨none, none, 0⟩]]⟩ :
        RunResult Unit ℕ (ℚ × ℕ) ℕ Unit).actLog.flatten, c.rate = 0 :=
  C4_eval_mode_amended cycleEnv decEnv constAct unitUpdate
    { exploration_rate := 1, exploration_min := 1/2, train := false,
      num_episodes := 1, max_episode_length := 5 } () 0 (10, 0) rfl _ (by decide)

/-- Witness for the amended C8: a concrete `train=True` run with
`exploration_min = 1/10 ≤ 1 = exploration_rate` and the default decay
`1 - 1/10000 ∈ (0, 1]`; the two logged rates `1, 9999/10000` stay in
bounds and are non-increasing. -/
theorem C8_witness :
    (∀ c ∈ (⟨[1], [[0]], (), 0, (10, 0), 1,
        [[⟨none, none, 1⟩, ⟨none, none, 9999/10000⟩]]⟩ :
        RunResult Unit ℕ (ℚ × ℕ) ℕ Unit).actLog.flatten,
        (1 : ℚ)/10 ≤ c.rate ∧ c.rate ≤ 1) ∧
    List.Chain' (fun a b => b.rate ≤ a.rate)
      (⟨[1], [[0]], (), 0, (10, 0), 1,
        [[⟨none, none, 1⟩, ⟨none, none, 9999/10000⟩]]⟩ :
        RunResult Unit ℕ (ℚ × ℕ) ℕ Unit).actLog.flatten :=
  C8_rate_monotone_amended cycleEnv decEnv constAct unitUpdate
    { exploration_rate := 1, exploration_min := 1/10,
      num_episodes := 1, max_episode_length := 5 } () 0 (10, 0)
    rfl (by norm_num) (by norm_num) (by norm_num) (by norm_num) _ (by decide)

/-- Witness for the amended C2 at `rs = [2, 3]` (so `k = 3`), budget 4. -/
theorem C2_witness :
    (([(2 : ℚ), 3] : List ℚ) ≠ [] ∧ ([(2 : ℚ), 3] : List ℚ).length + 1 ≤ 4) ∧
    (reinforce listEnv listEnv constAct unitUpdate
      { exploration_rate := 1, exploration_decay := 1 - 1/10000, exploration_min := 0,
        num_episodes := 1, max_episode_length := 4, train := true,
        recurrent := false, early_stopping := false, early_stopping_freq := 100 }
      () [2, 3] []).toOption.map
      (fun r => (r.reward_history, r.action_history.length,
        r.action_history.head?.map List.length, r.completed)) =
      some ([([(2 : ℚ), 3] : List ℚ).sum], 1, some ([(2 : ℚ), 3] : List ℚ).length, 1) :=
  ⟨⟨by simp, by norm_num⟩,
   C2_histories_amended constAct unitUpdate listEnv 1 (1 - 1/10000) 0 false 100 [2, 3]
     (by simp) 4 (by norm_num) () []⟩

/-- One validation episode against `decEnv` from state `(v, c)` yields
reward `v` and leaves the state at `(v - 1, 0)`: two inner steps, the
first recording reward `v`, the second terminal. -/
theorem decEnv_rollout (f : ℕ) (q : Unit) (v : ℚ) (xr : ℚ) (dn : Bool)
    (hx : Option Unit) (s : ℕ) :
    rollout decEnv constAct false (1 - 1/10000) 0 q (f + 2) s (v, 0) hx xr dn =
      ⟨[0], [v], [0], 0, (v - 1, 0), max (xr * (1 - 1/10000)) 0, true,
        [⟨hx, none, xr⟩, ⟨none, none, max (xr * (1 - 1/10000)) 0⟩]⟩ := rfl

/-- The concrete validator run: `valValidator` against `decEnv` returns
the current reward `v`, the unchanged parameters, and the decremented
state. -/
theorem decEnv_validator (q : Unit) (w : ℚ × ℕ) :
    valValidator decEnv constAct unitUpdate false q w =
      Except.ok (w.1, q, (w.1 - 1, 0)) := by
  obtain ⟨v, c⟩ := w
  show valValidator decEnv constAct unitUpdate false q (v, c) = Except.ok (v, q, (v - 1, 0))
  have hr1 : decEnv.reset (v, c) = ((v, 0), 0) := rfl
  have hr2 : decEnv.reset (v, 0) = ((v, 0), 0) := rfl
  have hr3 : decEnv.reset (v - 1, 0) = ((v - 1, 0), 0) := rfl
  simp only [valValidator, reinforceCore, nestedCfg, epLoop, hr1, hr2,
    Bool.false_eq_true, if_false, Bool.false_and]
  rw [show (2147483647 : ℕ) = 2147483645 + 2 from rfl, decEnv_rollout]
  simp [mkResult, hr3]

/-- Witness for the amended C6: training env `cycleEnv` (every iteration
completes a 2-step episode), validation env `decEnv` starting at reward
10, `num_episodes = 4`, `early_stopping_freq = 1`: the run stops at the
second validation with exactly 2 completed episodes, fewer than 4. -/
theorem C6_witness :
    ∃ res, reinforce cycleEnv decEnv constAct unitUpdate
      { exploration_rate := 1, num_episodes := 4, max_episode_length := 5,
        train := true, early_stopping := true, early_stopping_freq := 1 }
      () 0 (10, 0) = Except.ok res ∧
      res.reward_history.length = 2 ∧ res.completed = 2 ∧
      res.reward_history.length < 4 := by
  have htr : ∀ (q : Unit) (e2 : ℕ) (xr : ℚ) (dn : Bool), ∃ acts rews lps s3 e3 xr3 lg,
      rollout cycleEnv constAct false (1 - 1/10000) 0 q 5
        (cycleEnv.reset e2).2 (cycleEnv.reset e2).1 none xr dn =
        ⟨acts, rews, lps, s3, e3, xr3, true, lg⟩ ∧ rews ≠ [] := by
    intro q e2 xr dn
    exact ⟨[0], [1], [0], 0, 0, max (xr * (1 - 1/10000)) 0,
      [⟨none, none, xr⟩, ⟨none, none, max (xr * (1 - 1/10000)) 0⟩], rfl, by simp⟩
  exact C6_early_stop_amended cycleEnv decEnv constAct unitUpdate
    { exploration_rate := 1, num_episodes := 4, max_episode_length := 5,
      train := true, early_stopping := true, early_stopping_freq := 1 }
    () 0 (10, 0) rfl rfl (by norm_num) (fun w => w.1) (fun w => (w.1 - 1, 0))
    decEnv_validator (fun w => sub_lt_self _ one_pos) htr

end MoreConcreteRuns

end DeepRLTrading
